import Mathlib

/-!
Verification of the SyteLine XML export splitter
(`src/Dynamic_XML_Parser.py`, function `split_syteline_objects`).

Modelling choices:
* An `Element` mirrors `xml.etree.ElementTree.Element`: tag, attribute
  mapping (association list), optional text, children, optional tail.
* Paths are lists of segments; `os.path.join(a, b)` is `a ++ [b]`.
* The `print` calls of the function are modelled as structured events, as
  the specification's event vocabulary does.
* `new_tree.write(path)` can raise `OSError`; the model takes a write
  oracle `canWrite : path → Bool`.  Since the Python function has no
  exception handler, a failing write aborts the whole run; the model
  records this with a `Bool` flag.  The all-writes-succeed instance of the
  model is the ordinary run.
* File contents: the writer serialises the element tree to a token stream
  (start tag with attributes / character data / end tag), and a separate
  parser rebuilds a tree from such a stream, so that the round-trip claim
  is about parsing the generated file content, not about tree equality by
  construction.
* Mutation claims: a second, store-based model represents elements as
  nodes in an allocation store, with `ET.Element`, `ET.SubElement`,
  `deepcopy` and `append` as store operations, to state that the split
  never writes to any pre-existing node.
-/

namespace DynXml

/-- An XML element as held by `xml.etree.ElementTree`: a tag, an attribute
mapping (association list; keys are unique in a parsed document), optional
text (character data before the first child; `none` models Python `None`),
the child elements, and optional tail (character data after this element's
end tag inside its parent). -/
inductive Element : Type where
  | mk : String → List (String × String) → Option String → List Element →
      Option String → Element

/-- Structural induction for `Element`, with the inductive hypothesis for
every member of the child list. -/
theorem Element.ind (P : Element → Prop)
    (h : ∀ t a x c l, (∀ e ∈ c, P e) → P (Element.mk t a x c l)) :
    ∀ e, P e
  | .mk t a x c l => h t a x c l (fun e he => Element.ind P h e)
termination_by e => sizeOf e
decreasing_by
  have hlt := List.sizeOf_lt_of_mem he
  simp only [Element.mk.sizeOf_spec]
  omega

mutual

def Element.beq : Element → Element → Bool
  | .mk t1 a1 x1 c1 l1, .mk t2 a2 x2 c2 l2 =>
    t1 == t2 && a1 == a2 && x1 == x2 && Element.beqList c1 c2 && l1 == l2

def Element.beqList : List Element → List Element → Bool
  | [], [] => true
  | c :: cs, d :: ds => Element.beq c d && Element.beqList cs ds
  | _, _ => false

end

theorem Element.beqList_iff (c c2 : List Element)
    (ih : ∀ e ∈ c, ∀ b, (Element.beq e b = true) ↔ e = b) :
    (Element.beqList c c2 = true) ↔ c = c2 := by
  induction c generalizing c2 with
  | nil => cases c2 <;> simp [Element.beqList]
  | cons e0 es ihs =>
    cases c2 with
    | nil => simp [Element.beqList]
    | cons f fs =>
      simp only [Element.beqList, Bool.and_eq_true, List.cons.injEq]
      rw [ih e0 (by simp) f,
        ihs fs (fun e he b => ih e (List.mem_cons_of_mem _ he) b)]

theorem Element.beq_iff (a b : Element) : (Element.beq a b = true) ↔ a = b := by
  induction a using Element.ind generalizing b with
  | _ t at1 x c l ih =>
    cases b with
    | mk t2 a2 x2 c2 l2 =>
      simp only [Element.beq, Bool.and_eq_true, beq_iff_eq, Element.mk.injEq]
      rw [Element.beqList_iff c c2 ih]
      tauto

instance : DecidableEq Element := fun a b =>
  decidable_of_iff (Element.beq a b = true) (Element.beq_iff a b)

def Element.tag : Element → String
  | .mk t _ _ _ _ => t

def Element.attrib : Element → List (String × String)
  | .mk _ a _ _ _ => a

def Element.text : Element → Option String
  | .mk _ _ x _ _ => x

def Element.children : Element → List Element
  | .mk _ _ _ c _ => c

def Element.tail : Element → Option String
  | .mk _ _ _ _ t => t

/-- `element.find(tag)` of ElementTree for a plain tag path: the first
direct child whose tag equals `tag`, or `none` (line 51 and line 75). -/
def Element.find (e : Element) (t : String) : Option Element :=
  e.children.find? (fun c => c.tag == t)

/-- `element.findall(tag)` of ElementTree for a plain tag path: all direct
children whose tag equals `tag`, in document order (line 56). -/
def Element.findall (e : Element) (t : String) : List Element :=
  e.children.filter (fun c => c.tag == t)

/-- Python `dict.get(key, default)` over the attribute mapping: the stored
value when the key is present (even when that value is empty), otherwise
the default (line 71). -/
def attribGet (a : List (String × String)) (key dflt : String) : String :=
  match a.lookup key with
  | some v => v
  | none => dflt

/-- The character class of `re.sub(r'[\\/*?:"<>|]', '_', item_name)`
(line 83). -/
def forbiddenChars : List Char := ['\\', '/', '*', '?', ':', '\"', '<', '>', '|']

/-- Line 83: a character-class regex with the single-character replacement
`'_'` rewrites each matching character independently; all other characters
are kept. -/
def sanitize (s : String) : String :=
  String.mk (s.data.map (fun c => if c ∈ forbiddenChars then '_' else c))

/-- Python `str.strip()` with no argument: remove leading and trailing
ASCII whitespace (the values compared here are ASCII, so the unicode
spaces Python also strips cannot occur in a way that matters). -/
def isPySpace (c : Char) : Bool :=
  c = ' ' ∨ c = '\t' ∨ c = '\n' ∨ c = '\r' ∨ c = '\x0b' ∨ c = '\x0c'

def pyStrip (s : String) : String :=
  String.mk (((s.data.dropWhile isPySpace).reverse.dropWhile isPySpace).reverse)

/-- Lines 74-80: for container tag `"IDODefinitions"` the item is skipped
exactly when its direct child `AccessAs` exists, has truthy text (Python:
not `None` and not empty), and the stripped text is `"BaseSyteLine"` or
`"Core"`; the stripped value that triggered the skip is returned.  No
other container tag has an exclusion. -/
def exclusionValue (containerTag : String) (item : Element) : Option String :=
  if containerTag = "IDODefinitions" then
    match item.find "AccessAs" with
    | none => none
    | some el =>
      match el.text with
      | none => none
      | some t =>
        if t ≠ "" then
          if pyStrip t = "BaseSyteLine" ∨ pyStrip t = "Core" then some (pyStrip t)
          else none
        else none
  else none

/-- Line 71: `item.attrib.get("Name", "UnnamedItem")`, the raw output
name of an item. -/
def rawName (item : Element) : String :=
  attribGet item.attrib "Name" "UnnamedItem"

/-- Lines 83 and 91: the output path of an item, the entry's output
directory plus `safe_item_name + ".xml"`. -/
def itemPath (outputDir : List String) (item : Element) : List String :=
  outputDir ++ [sanitize (rawName item) ++ ".xml"]

/-- Lines 86-88: `ET.Element(top_level_tag, top_level_attrib)` (fresh
element, text `None`, no children, tail `None`), then
`ET.SubElement(new_root, container_tag, container_attrib)`, then
`new_container.append(deepcopy(item))`.  In this value model the deep copy
is the value itself; the store model below accounts for the freshness of
the copy. -/
def buildItemDoc (topTag : String) (topAttrib : List (String × String))
    (containerTag : String) (containerAttrib : List (String × String))
    (item : Element) : Element :=
  Element.mk topTag topAttrib none
    [Element.mk containerTag containerAttrib none [item] none] none

/-- The events the function reports (its `print` calls, lines 53, 58, 79
and 97), named as in the specification. -/
inductive Event : Type where
  | containerNotFound : String → String → Event
  | noItemsFound : String → String → Event
  | skipped : String → String → Event
  | created : List String → Event
deriving DecidableEq

/-- Result of a run: the events in emission order and the writes in write
order (path together with the document written there). -/
structure RunResult where
  events : List Event
  writes : List (List String × Element)
deriving DecidableEq

def RunResult.app (r s : RunResult) : RunResult :=
  ⟨r.events ++ s.events, r.writes ++ s.writes⟩

/-- The per-item loop of lines 70-97 with an explicit write oracle:
`canWrite path` says whether `new_tree.write(path)` succeeds.  A failing
write raises in Python and, absent any handler, aborts the run: the `Bool`
records the abort, nothing is recorded for the failing item, and the
remaining items are not visited. -/
def processItemsF (canWrite : List String → Bool) (topTag : String)
    (topAttrib : List (String × String)) (containerTag : String)
    (containerAttrib : List (String × String)) (outputDir : List String) :
    List Element → RunResult × Bool
  | [] => (⟨[], []⟩, false)
  | item :: rest =>
    match exclusionValue containerTag item with
    | some v =>
      let p := processItemsF canWrite topTag topAttrib containerTag
        containerAttrib outputDir rest
      (⟨Event.skipped (rawName item) v :: p.1.events, p.1.writes⟩, p.2)
    | none =>
      let path := itemPath outputDir item
      if canWrite path then
        let p := processItemsF canWrite topTag topAttrib containerTag
          containerAttrib outputDir rest
        (⟨Event.created path :: p.1.events,
          (path, buildItemDoc topTag topAttrib containerTag containerAttrib item)
            :: p.1.writes⟩, p.2)
      else (⟨[], []⟩, true)

/-- One mapping entry (the body of the `for item_tag, container_tag` loop,
lines 50-97): locate the container (line 51), enumerate the items
(line 56), and run the per-item loop in the subdirectory named after the
item tag (lines 63-64). -/
def processEntryF (canWrite : List String → Bool) (root : Element)
    (baseDir : List String) (itemTag containerTag : String) : RunResult × Bool :=
  match root.find containerTag with
  | none => (⟨[Event.containerNotFound containerTag itemTag], []⟩, false)
  | some container =>
    let items := container.findall itemTag
    if items.isEmpty then (⟨[Event.noItemsFound itemTag containerTag], []⟩, false)
    else
      processItemsF canWrite root.tag root.attrib containerTag container.attrib
        (baseDir ++ [itemTag]) items

/-- The mapping loop: entries in order; an abort (uncaught exception)
stops the whole run. -/
def processEntriesF (canWrite : List String → Bool) (root : Element)
    (baseDir : List String) : List (String × String) → RunResult × Bool
  | [] => (⟨[], []⟩, false)
  | (itemTag, containerTag) :: rest =>
    let p := processEntryF canWrite root baseDir itemTag containerTag
    if p.2 then (p.1, true)
    else
      let q := processEntriesF canWrite root baseDir rest
      (p.1.app q.1, q.2)

/-- `split_syteline_objects(tree, base_output_directory, items_to_extract)`
with the write oracle explicit.  `root` is `tree.getroot()`;
`itemsToExtract` is the dictionary as an ordered association list. -/
def splitF (canWrite : List String → Bool) (root : Element)
    (baseDir : List String) (itemsToExtract : List (String × String)) :
    RunResult × Bool :=
  processEntriesF canWrite root baseDir itemsToExtract

/-- The run in which every write succeeds: the ordinary behaviour of
`split_syteline_objects`. -/
def split_syteline_objects (root : Element) (baseDir : List String)
    (itemsToExtract : List (String × String)) : RunResult :=
  (splitF (fun _ => true) root baseDir itemsToExtract).1

/-- The paths written by a run, in write order (with repetitions when the
same path is written twice). -/
def outputPaths (r : RunResult) : List (List String) :=
  r.writes.map Prod.fst

/-- The number of files existing after the run: a later write to the same
path overwrites, so this is the number of distinct written paths. -/
def numFiles (r : RunResult) : Nat :=
  (outputPaths r).dedup.length

/-! ### Serialised file content

`new_tree.write(path, xml_declaration=True, encoding="utf-8")` writes the
tree as a token stream: a start tag with its attributes, character data,
and an end tag (the XML declaration precedes the stream and carries no
tree information).  `ET.parse` rebuilds the tree from that stream.  Both
directions are modelled below so that the round-trip property is about the
parsed file content.  Character data that is `None` and character data
that is the empty string serialise identically (to nothing), which is why
the round-trip theorem assumes the source tree is in parsed normal form
(no empty-string text or tail), exactly the form `ET.parse` produces. -/

/-- One token of the serialised stream. -/
inductive Token : Type where
  | start : String → List (String × String) → Token
  | chars : String → Token
  | close : String → Token
deriving DecidableEq

/-- Character data as written: `None` and `""` produce nothing. -/
def optChars : Option String → List Token
  | none => []
  | some s => if s = "" then [] else [Token.chars s]

mutual

def serializeElem : Element → List Token
  | .mk t a x c l =>
    Token.start t a :: (optChars x ++ serializeList c ++ [Token.close t] ++ optChars l)

def serializeList : List Element → List Token
  | [] => []
  | e :: es => serializeElem e ++ serializeList es

end

mutual

/-- Parsed normal form: no empty-string text or tail anywhere (a parser
returns `none` for absent character data, never `some ""`). -/
def normalElem : Element → Bool
  | .mk _ _ x c l => (x != some "") && normalList c && (l != some "")

def normalList : List Element → Bool
  | [] => true
  | e :: es => normalElem e && normalList es

end

mutual

/-- Number of elements in the subtree. -/
def sizeElem : Element → Nat
  | .mk _ _ _ c _ => 1 + sizeList c

def sizeList : List Element → Nat
  | [] => 0
  | e :: es => sizeElem e + sizeList es

end

/-- Consume one leading character-data token, if any. -/
def takeChars : List Token → Option String × List Token
  | Token.chars s :: rest => (some s, rest)
  | toks => (none, toks)

mutual

/-- Parse one element from the token stream: a start tag, optional text,
the children up to the matching end tag, and optional tail. -/
def parseElem : Nat → List Token → Option (Element × List Token)
  | fuel + 1, Token.start t a :: rest =>
    let tc := takeChars rest
    match parseChildren fuel tc.2 t with
    | none => none
    | some p =>
      let tl := takeChars p.2
      some (Element.mk t a tc.1 p.1 tl.1, tl.2)
  | _, _ => none

/-- Parse the child list up to (and consuming) the end tag of `t`. -/
def parseChildren : Nat → List Token → String → Option (List Element × List Token)
  | _ + 1, Token.close t2 :: rest, t =>
    if t2 = t then some ([], rest) else none
  | fuel + 1, Token.start t2 a :: rest, t =>
    match parseElem fuel (Token.start t2 a :: rest) with
    | none => none
    | some p =>
      match parseChildren fuel p.2 t with
      | none => none
      | some q => some (p.1 :: q.1, q.2)
  | _, _, _ => none

end

/-! ### Store model

`xml.etree.ElementTree` elements are mutable heap objects; `deepcopy` in
line 88 exists precisely so that the built documents share no mutable
state with the source tree.  To state that the split never mutates the
source, elements are modelled as nodes in an allocation store (node ids
are store indices), and the operations of lines 86-88 become store
operations.  Every other step of the function only reads the store. -/

structure Node where
  tag : String
  attrib : List (String × String)
  text : Option String
  children : List Nat
  tail : Option String
deriving DecidableEq

/-- An allocation store of element nodes; a node id is its index. -/
abbrev Store : Type := List Node

def getNode (s : Store) (i : Nat) : Option Node := s[i]?

/-- Allocate a fresh node, returning its id. -/
def allocNode (s : Store) (n : Node) : Store × Nat :=
  (s ++ [n], s.length)

/-- `parent.append(child)` (also the attachment step of `ET.SubElement`):
mutate the node at `parent` in place. -/
def appendChild (s : Store) (parent child : Nat) : Store :=
  match getNode s parent with
  | none => s
  | some nd => List.set s parent { nd with children := nd.children ++ [child] }

def childIds (s : Store) (i : Nat) : List Nat :=
  (getNode s i).elim [] Node.children

def nodeTag (s : Store) (i : Nat) : String :=
  (getNode s i).elim "" Node.tag

/-- `find` over the store: first direct child with the given tag. -/
def findStore (s : Store) (i : Nat) (t : String) : Option Nat :=
  (childIds s i).find? (fun j => nodeTag s j == t)

/-- `findall` over the store: all direct children with the given tag. -/
def findallStore (s : Store) (i : Nat) (t : String) : List Nat :=
  (childIds s i).filter (fun j => nodeTag s j == t)

mutual

/-- `copy.deepcopy` of the subtree at `i`: children are copied first, then
a fresh node is allocated for `i` itself; nothing is written to existing
nodes.  `fuel` bounds the recursion depth (the node ids reachable in a
store built by parsing or by these operations form a forest, so
the length of `s` is always enough). -/
def deepcopyNode : Store → Nat → Nat → Store × Nat
  | s, _, 0 => allocNode s ⟨"", [], none, [], none⟩
  | s, i, fuel + 1 =>
    match getNode s i with
    | none => allocNode s ⟨"", [], none, [], none⟩
    | some nd =>
      let p := deepcopyList s nd.children fuel
      allocNode p.1 { nd with children := p.2 }
termination_by s i fuel => (fuel, 0)

def deepcopyList : Store → List Nat → Nat → Store × List Nat
  | s, [], _ => (s, [])
  | s, i :: is, fuel =>
    let p := deepcopyNode s i fuel
    let q := deepcopyList p.1 is fuel
    (q.1, p.2 :: q.2)
termination_by s is fuel => (fuel, is.length + 1)

end

/-- Lines 86-88 over the store: `ET.Element(top_level_tag,
top_level_attrib)`, `ET.SubElement(new_root, container_tag,
container_attrib)` (fresh node plus `append` into the fresh root), and
`new_container.append(deepcopy(item))`. -/
def buildItemDocStore (s : Store) (topTag : String)
    (topAttrib : List (String × String)) (containerTag : String)
    (containerAttrib : List (String × String)) (itemId : Nat) : Store × Nat :=
  let r := allocNode s ⟨topTag, topAttrib, none, [], none⟩
  let c := allocNode r.1 ⟨containerTag, containerAttrib, none, [], none⟩
  let s2 := appendChild c.1 r.2 c.2
  let d := deepcopyNode s2 itemId s2.length
  (appendChild d.1 c.2 d.2, r.2)

/-- Lines 74-80 over the store: a pure read. -/
def exclusionValueStore (s : Store) (containerTag : String) (i : Nat) : Option String :=
  if containerTag = "IDODefinitions" then
    match findStore s i "AccessAs" with
    | none => none
    | some j =>
      match (getNode s j).bind Node.text with
      | none => none
      | some t =>
        if t ≠ "" then
          if pyStrip t = "BaseSyteLine" ∨ pyStrip t = "Core" then some (pyStrip t)
          else none
        else none
  else none

/-- The per-item loop over the store; the only store writes are those of
`buildItemDocStore`.  Returns the final store and the writes (path and the
id of the document root written there). -/
def processItemsStore (topTag : String) (topAttrib : List (String × String))
    (containerTag : String) (containerAttrib : List (String × String))
    (outputDir : List String) :
    Store → List Nat → Store × List (List String × Nat)
  | s, [] => (s, [])
  | s, itemId :: rest =>
    let itemName := attribGet ((getNode s itemId).elim [] Node.attrib) "Name" "UnnamedItem"
    match exclusionValueStore s containerTag itemId with
    | some _ =>
      processItemsStore topTag topAttrib containerTag containerAttrib outputDir s rest
    | none =>
      let path := outputDir ++ [sanitize itemName ++ ".xml"]
      let b := buildItemDocStore s topTag topAttrib containerTag containerAttrib itemId
      let p := processItemsStore topTag topAttrib containerTag containerAttrib
        outputDir b.1 rest
      (p.1, (path, b.2) :: p.2)

/-- One mapping entry over the store. -/
def processEntryStore (s : Store) (rootId : Nat) (baseDir : List String)
    (itemTag containerTag : String) : Store × List (List String × Nat) :=
  match findStore s rootId containerTag with
  | none => (s, [])
  | some containerId =>
    let items := findallStore s containerId itemTag
    if items.isEmpty then (s, [])
    else
      processItemsStore (nodeTag s rootId) ((getNode s rootId).elim [] Node.attrib)
        containerTag ((getNode s containerId).elim [] Node.attrib)
        (baseDir ++ [itemTag]) s items

/-- The whole split over the store. -/
def splitStore (baseDir : List String) :
    Store → Nat → List (String × String) → Store × List (List String × Nat)
  | s, _, [] => (s, [])
  | s, rootId, (itemTag, containerTag) :: rest =>
    let p := processEntryStore s rootId baseDir itemTag containerTag
    let q := splitStore baseDir p.1 rootId rest
    (q.1, p.2 ++ q.2)

/-! ### Structure of a successful run -/

/-- What one item contributes to the write list when every write
succeeds. -/
def itemWrite (topTag : String) (topAttrib : List (String × String))
    (containerTag : String) (containerAttrib : List (String × String))
    (outputDir : List String) (item : Element) : Option (List String × Element) :=
  match exclusionValue containerTag item with
  | some _ => none
  | none => some (itemPath outputDir item,
      buildItemDoc topTag topAttrib containerTag containerAttrib item)

/-- The event one item contributes when every write succeeds. -/
def itemEvent (containerTag : String) (outputDir : List String)
    (item : Element) : Event :=
  match exclusionValue containerTag item with
  | some v => Event.skipped (rawName item) v
  | none => Event.created (itemPath outputDir item)

/-- The result of one mapping entry when every write succeeds. -/
def entryRun (root : Element) (baseDir : List String) (e : String × String) :
    RunResult :=
  (processEntryF (fun _ => true) root baseDir e.1 e.2).1

theorem processItemsF_ok (topTag : String) (topAttrib : List (String × String))
    (ct : String) (cattrib : List (String × String)) (dir : List String)
    (items : List Element) :
    processItemsF (fun _ => true) topTag topAttrib ct cattrib dir items =
      (⟨items.map (itemEvent ct dir),
        items.filterMap (itemWrite topTag topAttrib ct cattrib dir)⟩, false) := by
  induction items with
  | nil => rfl
  | cons item rest ih =>
    simp only [processItemsF, ih, itemEvent, itemWrite, List.map_cons,
      List.filterMap_cons]
    cases hx : exclusionValue ct item <;> simp

theorem entryRun_eq (root : Element) (baseDir : List String) (it ct : String) :
    entryRun root baseDir (it, ct) =
      match root.find ct with
      | none => ⟨[Event.containerNotFound ct it], []⟩
      | some container =>
        if (container.findall it).isEmpty then ⟨[Event.noItemsFound it ct], []⟩
        else ⟨(container.findall it).map (itemEvent ct (baseDir ++ [it])),
          (container.findall it).filterMap
            (itemWrite root.tag root.attrib ct container.attrib (baseDir ++ [it]))⟩ := by
  unfold entryRun processEntryF
  cases root.find ct with
  | none => rfl
  | some container =>
    by_cases he : (container.findall it).isEmpty <;>
      simp [he, processItemsF_ok]

theorem processEntryF_true_flag (root : Element) (baseDir : List String)
    (it ct : String) :
    (processEntryF (fun _ => true) root baseDir it ct).2 = false := by
  unfold processEntryF
  cases root.find ct with
  | none => rfl
  | some container =>
    by_cases he : (container.findall it).isEmpty <;>
      simp [he, processItemsF_ok]

theorem processEntriesF_true (root : Element) (baseDir : List String)
    (map : List (String × String)) :
    processEntriesF (fun _ => true) root baseDir map =
      (⟨map.flatMap (fun e => (entryRun root baseDir e).events),
        map.flatMap (fun e => (entryRun root baseDir e).writes)⟩, false) := by
  induction map with
  | nil => rfl
  | cons e rest ih =>
    obtain ⟨it, ct⟩ := e
    simp only [processEntriesF, processEntryF_true_flag, ih]
    simp [entryRun, RunResult.app]

/-- The run decomposes entry by entry: each mapping entry contributes its
events and writes independently of the others. -/
theorem split_eq_bind (root : Element) (baseDir : List String)
    (map : List (String × String)) :
    split_syteline_objects root baseDir map =
      ⟨map.flatMap (fun e => (entryRun root baseDir e).events),
        map.flatMap (fun e => (entryRun root baseDir e).writes)⟩ := by
  unfold split_syteline_objects splitF
  rw [processEntriesF_true]

theorem mem_entry_writes_iff (root : Element) (baseDir : List String)
    (it ct : String) (p : List String) (d : Element) :
    (p, d) ∈ (entryRun root baseDir (it, ct)).writes ↔
      ∃ container item, root.find ct = some container ∧
        item ∈ container.findall it ∧ exclusionValue ct item = none ∧
        p = itemPath (baseDir ++ [it]) item ∧
        d = buildItemDoc root.tag root.attrib ct container.attrib item := by
  rw [entryRun_eq]
  cases hc : root.find ct with
  | none => simp
  | some container =>
    by_cases he : (container.findall it).isEmpty
    · rw [List.isEmpty_iff] at he
      simp [he]
    · simp only [Bool.not_eq_true] at he
      simp only [he, Bool.false_eq_true, if_false, List.mem_filterMap,
        Option.some.injEq]
      constructor
      · rintro ⟨item, hi, hw⟩
        unfold itemWrite at hw
        cases hx : exclusionValue ct item with
        | some v => simp only [hx] at hw; exact Option.noConfusion hw
        | none =>
          simp only [hx, Option.some.injEq, Prod.mk.injEq] at hw
          exact ⟨container, item, rfl, hi, hx, hw.1.symm, hw.2.symm⟩
      · rintro ⟨container2, item, hc2, hi, hx, hp, hd⟩
        subst hc2
        subst hp
        subst hd
        refine ⟨item, hi, ?_⟩
        unfold itemWrite
        simp only [hx]

/-- Characterisation of the writes of a whole run. -/
theorem mem_writes_iff (root : Element) (baseDir : List String)
    (map : List (String × String)) (p : List String) (d : Element) :
    (p, d) ∈ (split_syteline_objects root baseDir map).writes ↔
      ∃ it ct container item, (it, ct) ∈ map ∧ root.find ct = some container ∧
        item ∈ container.findall it ∧ exclusionValue ct item = none ∧
        p = itemPath (baseDir ++ [it]) item ∧
        d = buildItemDoc root.tag root.attrib ct container.attrib item := by
  rw [split_eq_bind]
  simp only [List.mem_flatMap]
  constructor
  · rintro ⟨⟨it, ct⟩, hm, hw⟩
    obtain ⟨container, item, h⟩ := (mem_entry_writes_iff root baseDir it ct p d).mp hw
    exact ⟨it, ct, container, item, hm, h.1, h.2.1, h.2.2.1, h.2.2.2.1, h.2.2.2.2⟩
  · rintro ⟨it, ct, container, item, hm, h1, h2, h3, h4, h5⟩
    exact ⟨(it, ct), hm,
      (mem_entry_writes_iff root baseDir it ct p d).mpr
        ⟨container, item, h1, h2, h3, h4, h5⟩⟩

/-! ### Round-trip of the serialised stream -/

def headIsChars : List Token → Bool
  | Token.chars _ :: _ => true
  | _ => false

theorem takeChars_not_chars (l : List Token) (h : headIsChars l = false) :
    takeChars l = (none, l) := by
  cases l with
  | nil => rfl
  | cons tk rest =>
    cases tk with
    | start t a => rfl
    | chars s => exact absurd h (by simp [headIsChars])
    | close t => rfl

theorem serializeElem_eq (e : Element) :
    serializeElem e = Token.start e.tag e.attrib ::
      (optChars e.text ++ serializeList e.children ++ [Token.close e.tag] ++
        optChars e.tail) := by
  cases e
  rfl

theorem headIsChars_serializeList (es : List Element) (t : String)
    (rest : List Token) :
    headIsChars (serializeList es ++ Token.close t :: rest) = false := by
  cases es with
  | nil => rfl
  | cons e es2 =>
    rw [serializeList, serializeElem_eq]
    rfl

theorem sizeElem_pos (e : Element) : 1 ≤ sizeElem e := by
  cases e
  rw [sizeElem]
  omega

theorem parse_serializeList (es : List Element)
    (ihAll : ∀ e ∈ es, ∀ (rest : List Token) (fuel : Nat),
      normalElem e = true → headIsChars rest = false → 2 * sizeElem e ≤ fuel →
      parseElem fuel (serializeElem e ++ rest) = some (e, rest))
    (t : String) (rest : List Token) (fuel : Nat)
    (hn : normalList es = true) (hf : 2 * sizeList es + 1 ≤ fuel) :
    parseChildren fuel (serializeList es ++ Token.close t :: rest) t =
      some (es, rest) := by
  induction es generalizing fuel with
  | nil =>
    obtain ⟨f, rfl⟩ : ∃ f, fuel = f + 1 := ⟨fuel - 1, by omega⟩
    simp [serializeList, parseChildren]
  | cons e es2 ih =>
    obtain ⟨f, rfl⟩ : ∃ f, fuel = f + 1 := ⟨fuel - 1, by omega⟩
    have hse := sizeElem_pos e
    rw [normalList, Bool.and_eq_true] at hn
    rw [sizeList] at hf
    have harg : serializeList (e :: es2) ++ Token.close t :: rest =
        Token.start e.tag e.attrib ::
          (optChars e.text ++ serializeList e.children ++ [Token.close e.tag] ++
            optChars e.tail ++ (serializeList es2 ++ Token.close t :: rest)) := by
      rw [serializeList, serializeElem_eq]
      simp [List.append_assoc]
    rw [harg]
    simp only [parseChildren]
    have harg2 : Token.start e.tag e.attrib ::
        (optChars e.text ++ serializeList e.children ++ [Token.close e.tag] ++
          optChars e.tail ++ (serializeList es2 ++ Token.close t :: rest)) =
        serializeElem e ++ (serializeList es2 ++ Token.close t :: rest) := by
      rw [serializeElem_eq]
      simp [List.append_assoc]
    rw [harg2]
    rw [ihAll e (by simp) (serializeList es2 ++ Token.close t :: rest) f hn.1
      (headIsChars_serializeList es2 t rest) (by omega)]
    simp only []
    rw [ih (fun e2 he2 => ihAll e2 (List.mem_cons_of_mem _ he2)) f hn.2 (by omega)]

theorem parse_serializeElem (e : Element) :
    ∀ (rest : List Token) (fuel : Nat), normalElem e = true →
      headIsChars rest = false → 2 * sizeElem e ≤ fuel →
      parseElem fuel (serializeElem e ++ rest) = some (e, rest) := by
  induction e using Element.ind with
  | _ t a x c l ih =>
    intro rest fuel hn hr hf
    rw [sizeElem] at hf
    obtain ⟨f, rfl⟩ : ∃ f, fuel = f + 1 := ⟨fuel - 1, by omega⟩
    rw [normalElem, Bool.and_eq_true, Bool.and_eq_true] at hn
    have harg : serializeElem (Element.mk t a x c l) ++ rest =
        Token.start t a ::
          (optChars x ++ (serializeList c ++ Token.close t :: (optChars l ++ rest))) := by
      rw [serializeElem_eq]
      simp [Element.tag, Element.attrib, Element.text, Element.children,
        Element.tail, List.append_assoc]
    rw [harg]
    simp only [parseElem]
    have hchil : parseChildren f (serializeList c ++ Token.close t ::
        (optChars l ++ rest)) t = some (c, optChars l ++ rest) :=
      parse_serializeList c ih t (optChars l ++ rest) f hn.1.2 (by omega)
    have htail : takeChars (optChars l ++ rest) = (l, rest) := by
      cases l with
      | none => exact takeChars_not_chars rest hr
      | some s =>
        have hs : s ≠ "" := by
          intro hcon
          subst hcon
          simp [bne] at hn
        rw [optChars, if_neg hs]
        rfl
    cases x with
    | none =>
      have htext : takeChars (optChars none ++ (serializeList c ++ Token.close t ::
          (optChars l ++ rest))) = (none, serializeList c ++ Token.close t ::
          (optChars l ++ rest)) := by
        rw [optChars, List.nil_append]
        exact takeChars_not_chars _ (headIsChars_serializeList c t (optChars l ++ rest))
      rw [htext]
      simp only [hchil, htail]
    | some s =>
      have hs : s ≠ "" := by
        intro hcon
        subst hcon
        simp [bne] at hn
      have htext : takeChars (optChars (some s) ++ (serializeList c ++ Token.close t ::
          (optChars l ++ rest))) = (some s, serializeList c ++ Token.close t ::
          (optChars l ++ rest)) := by
        rw [optChars, if_neg hs]
        rfl
      rw [htext]
      simp only [hchil, htail]

/-- Round-trip: parsing the serialised stream of a tree in parsed normal
form recovers the tree exactly. -/
theorem parse_serialize_roundtrip (e : Element) (hn : normalElem e = true) :
    parseElem (2 * sizeElem e) (serializeElem e) = some (e, []) := by
  have := parse_serializeElem e [] (2 * sizeElem e) hn rfl (by omega)
  rwa [List.append_nil] at this

theorem normalList_mem (es : List Element) (e : Element) (h : e ∈ es)
    (hn : normalList es = true) : normalElem e = true := by
  induction es with
  | nil => cases h
  | cons e2 es2 ih =>
    rw [normalList, Bool.and_eq_true] at hn
    cases h with
    | head => exact hn.1
    | tail _ h2 => exact ih h2 hn.2

theorem normalElem_children (e : Element) (hn : normalElem e = true) :
    normalList e.children = true := by
  cases e
  rw [normalElem, Bool.and_eq_true, Bool.and_eq_true] at hn
  exact hn.1.2

theorem normal_of_find (e : Element) (t : String) (c : Element)
    (hn : normalElem e = true) (h : e.find t = some c) : normalElem c = true :=
  normalList_mem e.children c (List.mem_of_find?_eq_some h)
    (normalElem_children e hn)

theorem normal_of_findall (e : Element) (t : String) (c : Element)
    (hn : normalElem e = true) (h : c ∈ e.findall t) : normalElem c = true :=
  normalList_mem e.children c (List.mem_of_mem_filter h)
    (normalElem_children e hn)

theorem normal_buildItemDoc (topTag : String) (topAttrib : List (String × String))
    (ct : String) (cattrib : List (String × String)) (item : Element)
    (hn : normalElem item = true) :
    normalElem (buildItemDoc topTag topAttrib ct cattrib item) = true := by
  rw [buildItemDoc]
  simp [normalElem, normalList, hn]

/-! ### The split never writes to a pre-existing node -/

/-- `t` preserves every node of `s`: `t` is at least as long, and agrees
with `s` at every index of `s`. -/
def preservesStore (s t : Store) : Prop :=
  s.length ≤ t.length ∧ ∀ i, i < s.length → getNode t i = getNode s i

theorem preservesStore_refl (s : Store) : preservesStore s s :=
  ⟨le_refl _, fun _ _ => rfl⟩

theorem preservesStore_trans (s t u : Store) (h1 : preservesStore s t)
    (h2 : preservesStore t u) : preservesStore s u :=
  ⟨le_trans h1.1 h2.1,
    fun i hi => (h2.2 i (lt_of_lt_of_le hi h1.1)).trans (h1.2 i hi)⟩

theorem preservesStore_alloc (s : Store) (n : Node) :
    preservesStore s (allocNode s n).1 := by
  refine ⟨?_, fun i hi => ?_⟩
  · simp [allocNode]
  · unfold allocNode getNode
    exact List.getElem?_append_left hi

theorem preservesStore_appendChild (s0 s : Store) (parent child : Nat)
    (h : preservesStore s0 s) (hp : s0.length ≤ parent) :
    preservesStore s0 (appendChild s parent child) := by
  unfold appendChild
  cases getNode s parent with
  | none => exact h
  | some nd =>
    refine ⟨?_, fun i hi => ?_⟩
    · simpa using h.1
    · unfold getNode
      rw [List.getElem?_set_ne (by omega)]
      exact h.2 i hi

theorem preservesStore_deepcopyList (fuel : Nat)
    (hA : ∀ (s : Store) (i : Nat), preservesStore s (deepcopyNode s i fuel).1) :
    ∀ (s : Store) (is2 : List Nat), preservesStore s (deepcopyList s is2 fuel).1 := by
  intro s is2
  induction is2 generalizing s with
  | nil =>
    rw [deepcopyList]
    exact preservesStore_refl s
  | cons i rest ih =>
    rw [deepcopyList]
    exact preservesStore_trans _ _ _ (hA s i) (ih _)

theorem preservesStore_deepcopyNode (fuel : Nat) :
    ∀ (s : Store) (i : Nat), preservesStore s (deepcopyNode s i fuel).1 := by
  induction fuel with
  | zero =>
    intro s i
    rw [deepcopyNode]
    exact preservesStore_alloc s _
  | succ f ih =>
    intro s i
    rw [deepcopyNode]
    cases getNode s i with
    | none => exact preservesStore_alloc s _
    | some nd =>
      exact preservesStore_trans _ _ _
        (preservesStore_deepcopyList f ih s nd.children)
        (preservesStore_alloc _ _)

theorem length_allocNode (s : Store) (n : Node) :
    (allocNode s n).1.length = s.length + 1 := by
  simp [allocNode]

theorem preservesStore_buildItemDoc (s : Store) (topTag : String)
    (topAttrib : List (String × String)) (ct : String)
    (cattrib : List (String × String)) (itemId : Nat) :
    preservesStore s (buildItemDocStore s topTag topAttrib ct cattrib itemId).1 := by
  unfold buildItemDocStore
  refine preservesStore_appendChild s _ _ _ ?_ ?_
  · refine preservesStore_trans _ _ _ ?_
      (preservesStore_deepcopyNode _ _ _)
    refine preservesStore_appendChild s _ _ _ ?_ ?_
    · exact preservesStore_trans _ _ _ (preservesStore_alloc s _)
        (preservesStore_alloc _ _)
    · simp [allocNode]
  · simp [allocNode]

theorem preservesStore_processItems (topTag : String)
    (topAttrib : List (String × String)) (ct : String)
    (cattrib : List (String × String)) (dir : List String) :
    ∀ (s : Store) (items : List Nat),
      preservesStore s (processItemsStore topTag topAttrib ct cattrib dir s items).1 := by
  intro s items
  induction items generalizing s with
  | nil => exact preservesStore_refl s
  | cons i rest ih =>
    rw [processItemsStore]
    cases exclusionValueStore s ct i with
    | some v => exact ih s
    | none =>
      exact preservesStore_trans _ _ _
        (preservesStore_buildItemDoc s topTag topAttrib ct cattrib i) (ih _)

theorem preservesStore_processEntry (s : Store) (rootId : Nat)
    (baseDir : List String) (it ct : String) :
    preservesStore s (processEntryStore s rootId baseDir it ct).1 := by
  unfold processEntryStore
  cases findStore s rootId ct with
  | none => exact preservesStore_refl s
  | some cid =>
    by_cases he : (findallStore s cid it).isEmpty
    · simp only [he, if_true]
      exact preservesStore_refl s
    · simp only [he, Bool.false_eq_true, if_false]
      exact preservesStore_processItems _ _ _ _ _ s _

theorem preservesStore_splitStore (baseDir : List String) :
    ∀ (s : Store) (rootId : Nat) (map : List (String × String)),
      preservesStore s (splitStore baseDir s rootId map).1 := by
  intro s rootId map
  induction map generalizing s with
  | nil => exact preservesStore_refl s
  | cons e rest ih =>
    obtain ⟨it, ct⟩ := e
    rw [splitStore]
    exact preservesStore_trans _ _ _
      (preservesStore_processEntry s rootId baseDir it ct) (ih _)

theorem preservesStore_append (s t : Store) (h : preservesStore s t) :
    ∃ ext, t = s ++ ext := by
  refine ⟨List.drop s.length t, List.ext_getElem? fun i => ?_⟩
  by_cases hi : i < s.length
  · have h2 := h.2 i hi
    unfold getNode at h2
    rw [h2]
    exact (List.getElem?_append_left hi).symm
  · rw [List.getElem?_append_right (by omega : s.length ≤ i),
      List.getElem?_drop]
    congr 1
    omega

/-! ### Sample documents (concrete instances for the theorems) -/

def sampleItemA : Element := Element.mk "Form" [("Name", "A")] none [] none

def sampleItemB : Element := Element.mk "Form" [("Name", "B/C")] none [] none

/-- The scenario document of the specification:
`<Export V="1"><Forms T="1"><Form Name="A"/><Form Name="B/C"/></Forms></Export>`. -/
def sampleRoot : Element :=
  Element.mk "Export" [("V", "1")] none
    [Element.mk "Forms" [("T", "1")] none [sampleItemA, sampleItemB] none] none

/-- Two items of one container with the same `Name`. -/
def dupRoot : Element :=
  Element.mk "Export" [] none
    [Element.mk "Forms" [] none
      [Element.mk "Form" [("Name", "A")] none [] none,
       Element.mk "Form" [("Name", "A")] none [] none] none] none

def idoItemCore : Element :=
  Element.mk "IDODefinition" [("Name", "SLCos")] none
    [Element.mk "AccessAs" [] (some " Core ") [] none] none

def idoItemCustom : Element :=
  Element.mk "IDODefinition" [("Name", "MyIdo")] none
    [Element.mk "AccessAs" [] (some "Custom") [] none] none

def idoRoot : Element :=
  Element.mk "FormsAndObjectsExport" [("Version", "010000")] none
    [Element.mk "IDODefinitions" [] none [idoItemCore, idoItemCustom] none] none

/-- A document with an item whose `Name` attribute is present but empty. -/
def emptyNameRoot : Element :=
  Element.mk "Export" [] none
    [Element.mk "Forms" [] none
      [Element.mk "Form" [("Name", "")] none [] none] none] none

theorem find_tag (e : Element) (t : String) (c : Element)
    (h : e.find t = some c) : c.tag = t := by
  have h2 := List.find?_some h
  simpa using h2

/-! ### The claims -/

/-- C1: every output document produced by one run has a root whose tag and
attribute mapping equal the original root's tag and attributes (hence
identical across all outputs of the run), exactly one child container
whose tag and attributes are copied verbatim from the source container,
and that container holds exactly one item, equal to the source item's full
subtree. -/
theorem c1_output_document_shape (root : Element) (baseDir : List String)
    (map : List (String × String)) (p : List String) (d : Element)
    (hw : (p, d) ∈ (split_syteline_objects root baseDir map).writes) :
    d.tag = root.tag ∧ d.attrib = root.attrib ∧
      ∃ it ct container item, (it, ct) ∈ map ∧ root.find ct = some container ∧
        item ∈ container.findall it ∧
        d.children =
          [Element.mk container.tag container.attrib none [item] none] := by
  obtain ⟨it, ct, container, item, hm, hc, hi, hx, hp, hd⟩ :=
    (mem_writes_iff root baseDir map p d).mp hw
  subst hd
  rw [buildItemDoc]
  refine ⟨rfl, rfl, it, ct, container, item, hm, hc, hi, ?_⟩
  rw [find_tag root ct container hc]
  rfl

theorem c1_witness :
    ((["out", "Form", "A.xml"],
        buildItemDoc "Export" [("V", "1")] "Forms" [("T", "1")] sampleItemA)
      ∈ (split_syteline_objects sampleRoot ["out"] [("Form", "Forms")]).writes) ∧
    ((buildItemDoc "Export" [("V", "1")] "Forms" [("T", "1")] sampleItemA).tag
        = sampleRoot.tag ∧
     (buildItemDoc "Export" [("V", "1")] "Forms" [("T", "1")] sampleItemA).attrib
        = sampleRoot.attrib ∧
      ∃ it ct container item, (it, ct) ∈ [(("Form" : String), ("Forms" : String))] ∧
        sampleRoot.find ct = some container ∧ item ∈ container.findall it ∧
        (buildItemDoc "Export" [("V", "1")] "Forms" [("T", "1")] sampleItemA).children =
          [Element.mk container.tag container.attrib none [item] none]) :=
  ⟨by decide,
    c1_output_document_shape sampleRoot ["out"] [("Form", "Forms")]
      ["out", "Form", "A.xml"]
      (buildItemDoc "Export" [("V", "1")] "Forms" [("T", "1")] sampleItemA)
      (by decide)⟩

/-- C2: for every item written by the split, parsing the generated file
content (the serialised token stream of the written document) back into a
tree yields a document containing one container with exactly one item, and
that item is attribute-for-attribute and subtree-for-subtree identical to
the source item.  The source tree is assumed in parsed normal form, as
`ET.parse` produces it. -/
theorem c2_parse_roundtrip (root : Element) (baseDir : List String)
    (map : List (String × String)) (p : List String) (d : Element)
    (hn : normalElem root = true)
    (hw : (p, d) ∈ (split_syteline_objects root baseDir map).writes) :
    ∃ it ct container item, (it, ct) ∈ map ∧ root.find ct = some container ∧
      item ∈ container.findall it ∧
      parseElem (2 * sizeElem d) (serializeElem d) =
        some (Element.mk root.tag root.attrib none
          [Element.mk container.tag container.attrib none [item] none] none,
          []) := by
  obtain ⟨it, ct, container, item, hm, hc, hi, hx, hp, hd⟩ :=
    (mem_writes_iff root baseDir map p d).mp hw
  have hni : normalElem item = true :=
    normal_of_findall container it item (normal_of_find root ct container hn hc) hi
  have hnd : normalElem d = true := by
    rw [hd]
    exact normal_buildItemDoc root.tag root.attrib ct container.attrib item hni
  refine ⟨it, ct, container, item, hm, hc, hi, ?_⟩
  rw [parse_serialize_roundtrip d hnd, hd, buildItemDoc,
    find_tag root ct container hc]

theorem c2_witness :
    normalElem sampleRoot = true ∧
    ((["out", "Form", "B_C.xml"],
        buildItemDoc "Export" [("V", "1")] "Forms" [("T", "1")] sampleItemB)
      ∈ (split_syteline_objects sampleRoot ["out"] [("Form", "Forms")]).writes) ∧
    (∃ it ct container item, (it, ct) ∈ [(("Form" : String), ("Forms" : String))] ∧
      sampleRoot.find ct = some container ∧ item ∈ container.findall it ∧
      parseElem (2 * sizeElem (buildItemDoc "Export" [("V", "1")] "Forms"
          [("T", "1")] sampleItemB))
        (serializeElem (buildItemDoc "Export" [("V", "1")] "Forms"
          [("T", "1")] sampleItemB)) =
        some (Element.mk sampleRoot.tag sampleRoot.attrib none
          [Element.mk container.tag container.attrib none [item] none] none,
          [])) :=
  ⟨by decide, by decide,
    c2_parse_roundtrip sampleRoot ["out"] [("Form", "Forms")]
      ["out", "Form", "B_C.xml"]
      (buildItemDoc "Export" [("V", "1")] "Forms" [("T", "1")] sampleItemB)
      (by decide) (by decide)⟩

/-- C9: the source document is never mutated by the split: in the store
model the final store is the initial store plus freshly allocated nodes,
so every pre-existing node — in particular every node of the input
document — is exactly as it was before the call; all outputs are built
from fresh copies. -/
theorem c9_source_not_mutated (s : Store) (baseDir : List String)
    (rootId : Nat) (map : List (String × String)) :
    ∃ ext, (splitStore baseDir s rootId map).1 = s ++ ext :=
  preservesStore_append s _ (preservesStore_splitStore baseDir s rootId map)

/-- C5 fails as stated: the code defaults the raw name only when the
naming attribute is absent (`dict.get`), not when it is present but empty.
An item with `Name=""` gets raw name `""`, not `"UnnamedItem"`, and its
file is written as `.xml`. -/
theorem c5_counterexample :
    (Element.mk "Form" [("Name", "")] none [] none).attrib.lookup "Name"
        = some "" ∧
    rawName (Element.mk "Form" [("Name", "")] none [] none) = "" ∧
    rawName (Element.mk "Form" [("Name", "")] none [] none) ≠ "UnnamedItem" ∧
    outputPaths (split_syteline_objects emptyNameRoot ["out"] [("Form", "Forms")])
        = [["out", "Form", ".xml"]] := by
  refine ⟨by decide, by decide, by decide, by decide⟩

/-- C5 amended: the raw output name is the naming attribute's stored value
whenever the attribute is present — even when that value is empty — and
the sentinel `"UnnamedItem"` exactly when the attribute is absent. -/
theorem c5_raw_name (item : Element) :
    (item.attrib.lookup "Name" = none → rawName item = "UnnamedItem") ∧
    (∀ v, item.attrib.lookup "Name" = some v → rawName item = v) := by
  unfold rawName attribGet
  cases h : item.attrib.lookup "Name" with
  | none =>
    exact ⟨fun _ => rfl, fun v hv => Option.noConfusion hv⟩
  | some w =>
    refine ⟨fun hc => Option.noConfusion hc, fun v hv => ?_⟩
    injection hv with hv2

theorem c5_raw_name_witness :
    ((Element.mk "Form" [] none [] none).attrib.lookup "Name" = none ∧
      rawName (Element.mk "Form" [] none [] none) = "UnnamedItem") ∧
    ((Element.mk "Form" [("Name", "X")] none [] none).attrib.lookup "Name"
        = some "X" ∧
      rawName (Element.mk "Form" [("Name", "X")] none [] none) = "X") :=
  ⟨⟨by decide, (c5_raw_name (Element.mk "Form" [] none [] none)).1 (by decide)⟩,
    ⟨by decide,
      (c5_raw_name (Element.mk "Form" [("Name", "X")] none [] none)).2 "X"
        (by decide)⟩⟩

/-- C6: sanitisation maps each character of the forbidden set
`{ \ / * ? : " < > | }` to a single underscore, one replacement per
character — the length is preserved, so runs are not collapsed — and
leaves every other character unchanged. -/
theorem c6_sanitize (s : String) :
    (sanitize s).data.length = s.data.length ∧
    ∀ (i : Nat) (c : Char), s.data[i]? = some c →
      (sanitize s).data[i]? = some (if c ∈ forbiddenChars then '_' else c) := by
  have hdata : (sanitize s).data =
      s.data.map (fun c => if c ∈ forbiddenChars then '_' else c) := rfl
  constructor
  · rw [hdata, List.length_map]
  · intro i c h
    rw [hdata, List.getElem?_map, h]
    rfl

theorem c6_sanitize_witness :
    (("a//b\\" : String).data[2]? = some '/' ∧
      (sanitize "a//b\\").data[2]? = some '_') ∧
    sanitize "a//b\\" = "a__b_" :=
  ⟨⟨by decide, (c6_sanitize "a//b\\").2 2 '/' (by decide)⟩, by decide⟩

/-- C7 fails as stated: the function has no exception handler, so a
failing per-item write does not produce any `WriteError`-style report and
does not let the run continue.  With a write oracle that fails on the
first item's path, the whole run aborts: no event is recorded and the
second (writable) item is never written, while the same run with all
writes succeeding writes both items. -/
theorem c7_counterexample :
    splitF (fun p => p != ["out", "Form", "A.xml"]) sampleRoot ["out"]
        [("Form", "Forms")] = (⟨[], []⟩, true) ∧
    outputPaths (split_syteline_objects sampleRoot ["out"] [("Form", "Forms")])
        = [["out", "Form", "A.xml"], ["out", "Form", "B_C.xml"]] := by
  refine ⟨by decide, by decide⟩

/-- C7 amended: a per-item write failure is an uncaught exception: the run
aborts at the failing item — nothing is recorded for it, the remaining
items of the entry are not visited, and the remaining mapping entries are
not processed. -/
theorem c7_write_failure_aborts (canWrite : List String → Bool)
    (topTag : String) (topAttrib : List (String × String)) (ct : String)
    (cattrib : List (String × String)) (dir : List String)
    (item : Element) (rest : List Element)
    (hnx : exclusionValue ct item = none)
    (hf : canWrite (itemPath dir item) = false) :
    processItemsF canWrite topTag topAttrib ct cattrib dir (item :: rest) =
      (⟨[], []⟩, true) ∧
    ∀ (root : Element) (baseDir : List String) (it ct2 : String)
      (entries : List (String × String)),
      (processEntryF canWrite root baseDir it ct2).2 = true →
      processEntriesF canWrite root baseDir ((it, ct2) :: entries) =
        ((processEntryF canWrite root baseDir it ct2).1, true) := by
  constructor
  · rw [processItemsF]
    simp only [hnx, hf]
    rfl
  · intro root baseDir it ct2 entries hab
    rw [processEntriesF]
    simp only [hab, if_true]

theorem c7_write_failure_aborts_witness :
    (exclusionValue "Forms" sampleItemA = none ∧
      (fun p => p != ["out", "Form", "A.xml"]) (itemPath ["out", "Form"] sampleItemA)
        = false) ∧
    processItemsF (fun p => p != ["out", "Form", "A.xml"]) "Export" [("V", "1")]
        "Forms" [("T", "1")] ["out", "Form"] [sampleItemA, sampleItemB] =
      (⟨[], []⟩, true) :=
  ⟨⟨by decide, by decide⟩,
    (c7_write_failure_aborts (fun p => p != ["out", "Form", "A.xml"]) "Export"
      [("V", "1")] "Forms" [("T", "1")] ["out", "Form"] sampleItemA [sampleItemB]
      (by decide) (by decide)).1⟩

/-- C8: a mapping entry whose container tag has no matching direct child
of the root contributes no writes and exactly a `ContainerNotFound` event;
that event appears among the run's events, and the run is the independent
concatenation of the per-entry results, so every other entry is processed
normally. -/
theorem c8_missing_container (root : Element) (baseDir : List String)
    (map : List (String × String)) (it ct : String)
    (hm : (it, ct) ∈ map) (hc : root.find ct = none) :
    entryRun root baseDir (it, ct) = ⟨[Event.containerNotFound ct it], []⟩ ∧
    Event.containerNotFound ct it ∈ (split_syteline_objects root baseDir map).events ∧
    split_syteline_objects root baseDir map =
      ⟨map.flatMap (fun e => (entryRun root baseDir e).events),
        map.flatMap (fun e => (entryRun root baseDir e).writes)⟩ := by
  have h1 : entryRun root baseDir (it, ct) =
      ⟨[Event.containerNotFound ct it], []⟩ := by
    rw [entryRun_eq, hc]
  refine ⟨h1, ?_, split_eq_bind root baseDir map⟩
  rw [split_eq_bind]
  exact List.mem_flatMap.mpr ⟨(it, ct), hm, by rw [h1]; exact List.mem_singleton.mpr rfl⟩

theorem c8_missing_container_witness :
    ((("Script" : String), ("Scripts" : String))
        ∈ [("Form", "Forms"), ("Script", "Scripts")] ∧
      sampleRoot.find "Scripts" = none) ∧
    (entryRun sampleRoot ["out"] ("Script", "Scripts") =
        ⟨[Event.containerNotFound "Scripts" "Script"], []⟩ ∧
      Event.containerNotFound "Scripts" "Script" ∈
        (split_syteline_objects sampleRoot ["out"]
          [("Form", "Forms"), ("Script", "Scripts")]).events) :=
  ⟨⟨by decide, by decide⟩,
    ⟨(c8_missing_container sampleRoot ["out"]
        [("Form", "Forms"), ("Script", "Scripts")] "Script" "Scripts"
        (by decide) (by decide)).1,
      (c8_missing_container sampleRoot ["out"]
        [("Form", "Forms"), ("Script", "Scripts")] "Script" "Scripts"
        (by decide) (by decide)).2.1⟩⟩

/-- The items one mapping entry selects (line 56): empty when the
container is missing. -/
def entryItems (root : Element) (e : String × String) : List Element :=
  match root.find e.2 with
  | none => []
  | some container => container.findall e.1

/-- All items selected by a run, entry by entry: the `N` of claim C3. -/
def selectedItems (root : Element) (map : List (String × String)) : List Element :=
  map.flatMap (entryItems root)

/-- No exclusion rule fires on any selected item. -/
def noExclusions (root : Element) (map : List (String × String)) : Prop :=
  ∀ e ∈ map, ∀ item ∈ entryItems root e, exclusionValue e.2 item = none

instance (root : Element) (map : List (String × String)) :
    Decidable (noExclusions root map) := by
  unfold noExclusions
  infer_instance

theorem filterMap_eq_map_of_mem {α β : Type} (l : List α) (f : α → Option β)
    (g : α → β) (h : ∀ x ∈ l, f x = some (g x)) : l.filterMap f = l.map g := by
  induction l with
  | nil => rfl
  | cons x xs ih =>
    rw [List.filterMap_cons, h x (by simp), List.map_cons,
      ih (fun y hy => h y (List.mem_cons_of_mem _ hy))]

theorem flatMap_congr_mem {α β : Type} (l : List α) (f g : α → List β)
    (h : ∀ x ∈ l, f x = g x) : l.flatMap f = l.flatMap g := by
  induction l with
  | nil => rfl
  | cons x xs ih =>
    rw [List.flatMap_cons, List.flatMap_cons, h x (by simp),
      ih (fun y hy => h y (List.mem_cons_of_mem _ hy))]

theorem length_flatMap_congr {α β γ : Type} (l : List α) (f : α → List β)
    (g : α → List γ) (h : ∀ x ∈ l, (f x).length = (g x).length) :
    (l.flatMap f).length = (l.flatMap g).length := by
  induction l with
  | nil => rfl
  | cons x xs ih =>
    rw [List.flatMap_cons, List.flatMap_cons, List.length_append,
      List.length_append, h x (by simp),
      ih (fun y hy => h y (List.mem_cons_of_mem _ hy))]

/-- With no exclusions, an entry's written paths are exactly one path per
selected item, in order. -/
theorem entry_paths_noexc (root : Element) (baseDir : List String)
    (e : String × String)
    (hx : ∀ item ∈ entryItems root e, exclusionValue e.2 item = none) :
    (entryRun root baseDir e).writes.map Prod.fst =
      (entryItems root e).map (itemPath (baseDir ++ [e.1])) := by
  obtain ⟨it, ct⟩ := e
  unfold entryItems at hx ⊢
  rw [entryRun_eq]
  cases hc : root.find ct with
  | none => rfl
  | some container =>
    simp only [hc] at hx
    by_cases he : (container.findall it).isEmpty
    · rw [List.isEmpty_iff] at he
      simp [he]
    · simp only [Bool.not_eq_true] at he
      simp only [he, Bool.false_eq_true, if_false]
      rw [filterMap_eq_map_of_mem (container.findall it)
        (itemWrite root.tag root.attrib ct container.attrib (baseDir ++ [it]))
        (fun item => (itemPath (baseDir ++ [it]) item,
          buildItemDoc root.tag root.attrib ct container.attrib item))
        (fun item hitem => by unfold itemWrite; rw [hx item hitem])]
      rw [List.map_map]
      rfl

/-- The tag segment of an item's path sits right after the base
directory. -/
theorem itemPath_tag_segment (baseDir : List String) (tag : String)
    (item : Element) :
    (itemPath (baseDir ++ [tag]) item)[baseDir.length]? = some tag := by
  unfold itemPath
  rw [List.append_assoc, List.getElem?_append_right (le_refl _)]
  simp

/-- C3 fails as stated: a document with two items that share a name (no
exclusions anywhere) yields two writes to the same path, hence one output
file, not `N = 2`. -/
theorem c3_counterexample :
    noExclusions dupRoot [("Form", "Forms")] ∧
    (selectedItems dupRoot [("Form", "Forms")]).length = 2 ∧
    numFiles (split_syteline_objects dupRoot ["out"] [("Form", "Forms")]) = 1 := by
  refine ⟨by decide, by decide, by decide⟩

/-- C3 amended: with no exclusions the run performs exactly one write per
selected item — the path list is the explicit deterministic function below
of the output root, the mapping configuration and the sanitisation rule
applied to the item names — so there are exactly `N` writes for `N` items.
The number of distinct files on disk also equals `N` under the additional
hypotheses (which the frozen claim omits, and without which
`c3_counterexample` refutes it) that the mapping's item tags are distinct
and that within each entry the sanitised item names are distinct. -/
theorem c3_one_write_per_item (root : Element) (baseDir : List String)
    (map : List (String × String)) (hex : noExclusions root map) :
    outputPaths (split_syteline_objects root baseDir map) =
      map.flatMap (fun e => (entryItems root e).map (itemPath (baseDir ++ [e.1]))) ∧
    (outputPaths (split_syteline_objects root baseDir map)).length =
      (selectedItems root map).length ∧
    ((map.map Prod.fst).Nodup →
      (∀ e ∈ map,
        ((entryItems root e).map (fun item => sanitize (rawName item))).Nodup) →
      numFiles (split_syteline_objects root baseDir map) =
        (selectedItems root map).length) := by
  have h1 : outputPaths (split_syteline_objects root baseDir map) =
      map.flatMap (fun e => (entryItems root e).map (itemPath (baseDir ++ [e.1]))) := by
    unfold outputPaths
    rw [split_eq_bind]
    show (map.flatMap fun e => (entryRun root baseDir e).writes).map Prod.fst = _
    rw [List.map_flatMap]
    exact flatMap_congr_mem map _ _
      (fun e he => entry_paths_noexc root baseDir e (hex e he))
  have h2 : (outputPaths (split_syteline_objects root baseDir map)).length =
      (selectedItems root map).length := by
    rw [h1]
    unfold selectedItems
    exact length_flatMap_congr map _ _ (fun e _ => List.length_map _ _)
  refine ⟨h1, h2, fun hkeys hnames => ?_⟩
  have hnodup : (outputPaths (split_syteline_objects root baseDir map)).Nodup := by
    rw [h1, List.nodup_flatMap]
    constructor
    · intro e he
      have hn := hnames e he
      have hmm : (entryItems root e).map (itemPath (baseDir ++ [e.1])) =
          ((entryItems root e).map (fun item => sanitize (rawName item))).map
            (fun n => (baseDir ++ [e.1]) ++ [n ++ ".xml"]) := by
        rw [List.map_map]
        rfl
      rw [hmm]
      refine hn.map ?_
      intro a b hab
      have h3 := List.append_cancel_left hab
      injection h3 with h4
      have h5 := congrArg String.data h4
      rw [String.data_append, String.data_append] at h5
      exact String.ext (List.append_cancel_right h5)
    · have hpw : map.Pairwise (fun a b => a.1 ≠ b.1) :=
        List.pairwise_map.mp hkeys
      refine hpw.imp ?_
      intro a b hne p hpa hpb
      obtain ⟨ia, hia, hpeqa⟩ := List.mem_map.mp hpa
      obtain ⟨ib, hib, hpeqb⟩ := List.mem_map.mp hpb
      apply hne
      have hga : (itemPath (baseDir ++ [a.1]) ia)[baseDir.length]? =
          p[baseDir.length]? := by rw [hpeqa]
      have hgb : (itemPath (baseDir ++ [b.1]) ib)[baseDir.length]? =
          p[baseDir.length]? := by rw [hpeqb]
      rw [itemPath_tag_segment] at hga hgb
      rw [← hgb] at hga
      injection hga

  unfold numFiles
  rw [hnodup.dedup]
  exact h2

theorem c3_one_write_per_item_witness :
    noExclusions sampleRoot [("Form", "Forms")] ∧
    outputPaths (split_syteline_objects sampleRoot ["out"] [("Form", "Forms")]) =
      ([("Form", "Forms")] : List (String × String)).flatMap
        (fun e => (entryItems sampleRoot e).map (itemPath (["out"] ++ [e.1]))) ∧
    (outputPaths (split_syteline_objects sampleRoot ["out"] [("Form", "Forms")])).length
      = (selectedItems sampleRoot [("Form", "Forms")]).length :=
  ⟨by decide,
    (c3_one_write_per_item sampleRoot ["out"] [("Form", "Forms")] (by decide)).1,
    (c3_one_write_per_item sampleRoot ["out"] [("Form", "Forms")] (by decide)).2.1⟩

/-- The write condition exactly as the specification words it (claim C4):
the item is written iff the keyed field is absent or the field's trimmed
text is not in the excluded value set. -/
def specWrittenCond (item : Element) : Prop :=
  item.find "AccessAs" = none ∨
    ¬ (pyStrip (((item.find "AccessAs").bind Element.text).getD "") ∈
        (["BaseSyteLine", "Core"] : List String))

instance (item : Element) : Decidable (specWrittenCond item) := by
  unfold specWrittenCond
  infer_instance

/-- The code's exclusion test agrees with the specification's written
condition: writing happens iff the field is absent or its trimmed text is
outside the excluded set.  (The code additionally short-circuits on `None`
or empty text, but an empty or missing text trims to `""`, which is not an
excluded value, so the two conditions coincide.) -/
theorem exclusionValue_none_iff (item : Element) :
    exclusionValue "IDODefinitions" item = none ↔ specWrittenCond item := by
  unfold exclusionValue specWrittenCond
  rw [if_pos rfl]
  cases hf : item.find "AccessAs" with
  | none => simp
  | some el =>
    simp only [Option.some_bind]
    cases hx : el.text with
    | none =>
      simp only [Option.getD_none]
      constructor
      · intro _
        right
        decide
      · intro _
        trivial
    | some t =>
      simp only [Option.getD_some]
      by_cases ht : t = ""
      · subst ht
        simp only [ne_eq, not_true_eq_false, if_false]
        constructor
        · intro _
          right
          decide
        · intro _
          trivial
      · rw [if_pos ht]
        by_cases hv : pyStrip t = "BaseSyteLine" ∨ pyStrip t = "Core"
        · rw [if_pos hv]
          constructor
          · intro hcon
            exact Option.noConfusion hcon
          · intro hcon
            rcases hcon with hcon | hcon
            · exact Option.noConfusion hcon
            · exact absurd (by rcases hv with hv | hv <;> simp [hv]) hcon
        · rw [if_neg hv]
          constructor
          · intro _
            right
            intro hmem
            apply hv
            rcases List.mem_cons.mp hmem with h1 | h1
            · exact Or.inl h1
            · exact Or.inr (by simpa using h1)
          · intro _
            rfl

/-- Any value the exclusion rule reports comes from the hard-coded rule:
the container tag is `"IDODefinitions"` and the value is `"BaseSyteLine"`
or `"Core"`. -/
theorem exclusionValue_some_eq (ct : String) (item : Element) (v : String)
    (h : exclusionValue ct item = some v) :
    ct = "IDODefinitions" ∧ (v = "BaseSyteLine" ∨ v = "Core") := by
  unfold exclusionValue at h
  split at h
  · rename_i hct
    refine ⟨hct, ?_⟩
    split at h
    · exact Option.noConfusion h
    · split at h
      · exact Option.noConfusion h
      · split at h
        · split at h
          · rename_i hv
            injection h with h2
            rw [h2] at hv
            exact hv
          · exact Option.noConfusion h
        · exact Option.noConfusion h
  · exact Option.noConfusion h

theorem buildItemDoc_inj (t1 t2 : String) (a1 a2 : List (String × String))
    (c1 c2 : String) (ca1 ca2 : List (String × String)) (i1 i2 : Element)
    (h : buildItemDoc t1 a1 c1 ca1 i1 = buildItemDoc t2 a2 c2 ca2 i2) :
    t1 = t2 ∧ a1 = a2 ∧ c1 = c2 ∧ ca1 = ca2 ∧ i1 = i2 := by
  unfold buildItemDoc at h
  injection h with h1 h2 h3 h4 h5
  injection h4 with h41 h42
  injection h41 with g1 g2 g3 g4 g5
  injection g4 with g41 g42
  exact ⟨h1, h2, g1, g2, g41⟩

/-- C4: for the one container with an exclusion rule (container tag
`"IDODefinitions"`, field `"AccessAs"`, excluded set `{"BaseSyteLine",
"Core"}`), an item of that container has its document written iff the
field is absent or its trimmed text is not excluded; when the rule fires,
a Skipped event carrying the item's name and the triggering value is
emitted and the item's document is never written by that entry. -/
theorem c4_exclusion_rule (root : Element) (baseDir : List String)
    (map : List (String × String)) (container item : Element) (it : String)
    (hm : (it, "IDODefinitions") ∈ map)
    (hc : root.find "IDODefinitions" = some container)
    (hi : item ∈ container.findall it) :
    ((itemPath (baseDir ++ [it]) item,
        buildItemDoc root.tag root.attrib "IDODefinitions" container.attrib item)
          ∈ (split_syteline_objects root baseDir map).writes
      ↔ specWrittenCond item) ∧
    (∀ v, exclusionValue "IDODefinitions" item = some v →
      Event.skipped (rawName item) v
          ∈ (split_syteline_objects root baseDir map).events ∧
      ∀ p d, (p, d) ∈ (entryRun root baseDir (it, "IDODefinitions")).writes →
        d ≠ buildItemDoc root.tag root.attrib "IDODefinitions"
              container.attrib item) := by
  constructor
  · constructor
    · intro hw
      obtain ⟨it2, ct2, container2, item2, hm2, hc2, hi2, hx2, hp2, hd2⟩ :=
        (mem_writes_iff root baseDir map _ _).mp hw
      obtain ⟨_, _, hcteq, _, hieq⟩ := buildItemDoc_inj _ _ _ _ _ _ _ _ _ _ hd2.symm
      rw [← exclusionValue_none_iff]
      rw [hcteq, hieq] at hx2
      exact hx2
    · intro hcond
      exact (mem_writes_iff root baseDir map _ _).mpr
        ⟨it, "IDODefinitions", container, item, hm, hc, hi,
          (exclusionValue_none_iff item).mpr hcond, rfl, rfl⟩
  · intro v hv
    constructor
    · rw [split_eq_bind]
      refine List.mem_flatMap.mpr ⟨(it, "IDODefinitions"), hm, ?_⟩
      rw [entryRun_eq, hc]
      have hne : (container.findall it).isEmpty = false := by
        cases hfa : container.findall it with
        | nil => rw [hfa] at hi; cases hi
        | cons x xs => rfl
      simp only [hne, Bool.false_eq_true, if_false]
      refine List.mem_map.mpr ⟨item, hi, ?_⟩
      unfold itemEvent
      rw [hv]
    · intro p d hw hd
      obtain ⟨container2, item2, hc2, hi2, hx2, hp2, hd2⟩ :=
        (mem_entry_writes_iff root baseDir it "IDODefinitions" p d).mp hw
      rw [hd] at hd2
      obtain ⟨_, _, _, _, hieq⟩ := buildItemDoc_inj _ _ _ _ _ _ _ _ _ _ hd2
      rw [← hieq] at hx2
      rw [hx2] at hv
      exact Option.noConfusion hv

theorem c4_exclusion_rule_witness :
    ((("IDODefinition" : String), ("IDODefinitions" : String))
        ∈ [("IDODefinition", "IDODefinitions")] ∧
      idoRoot.find "IDODefinitions" =
        some (Element.mk "IDODefinitions" [] none [idoItemCore, idoItemCustom] none) ∧
      idoItemCore ∈ (Element.mk "IDODefinitions" [] none
        [idoItemCore, idoItemCustom] none).findall "IDODefinition") ∧
    (¬ ((itemPath (["out"] ++ ["IDODefinition"]) idoItemCore,
          buildItemDoc idoRoot.tag idoRoot.attrib "IDODefinitions" [] idoItemCore)
            ∈ (split_syteline_objects idoRoot ["out"]
                [("IDODefinition", "IDODefinitions")]).writes) ∧
      Event.skipped "SLCos" "Core"
        ∈ (split_syteline_objects idoRoot ["out"]
            [("IDODefinition", "IDODefinitions")]).events) :=
  ⟨⟨by decide, by decide, by decide⟩,
    ⟨fun hw =>
      (by decide : ¬ specWrittenCond idoItemCore)
        (((c4_exclusion_rule idoRoot ["out"] [("IDODefinition", "IDODefinitions")]
          (Element.mk "IDODefinitions" [] none [idoItemCore, idoItemCustom] none)
          idoItemCore "IDODefinition" (by decide) (by decide) (by decide)).1).mp hw),
      ((c4_exclusion_rule idoRoot ["out"] [("IDODefinition", "IDODefinitions")]
          (Element.mk "IDODefinitions" [] none [idoItemCore, idoItemCustom] none)
          idoItemCore "IDODefinition" (by decide) (by decide) (by decide)).2
        "Core" (by decide)).1⟩⟩

/-- A Skipped event in the per-item loop can only come from an item the
exclusion rule fired on, and carries that item's raw name and the
triggering value. -/
theorem skipped_mem_processItemsF (canWrite : List String → Bool)
    (topTag : String) (topAttrib : List (String × String)) (ct : String)
    (cattrib : List (String × String)) (dir : List String)
    (items : List Element) (n v : String)
    (h : Event.skipped n v ∈
      (processItemsF canWrite topTag topAttrib ct cattrib dir items).1.events) :
    ∃ item ∈ items, exclusionValue ct item = some v ∧ n = rawName item := by
  induction items with
  | nil => cases h
  | cons item rest ih =>
    rw [processItemsF] at h
    cases hx : exclusionValue ct item with
    | some w =>
      simp only [hx] at h
      rcases List.mem_cons.mp h with h1 | h2
      · injection h1 with hn hv
        exact ⟨item, List.mem_cons_self item rest, by rw [hx, hv], hn⟩
      · obtain ⟨item2, hmem, hx2, hn2⟩ := ih h2
        exact ⟨item2, List.mem_cons_of_mem _ hmem, hx2, hn2⟩
    | none =>
      simp only [hx] at h
      by_cases hw : canWrite (itemPath dir item)
      · simp only [hw, if_true] at h
        rcases List.mem_cons.mp h with h1 | h2
        · exact Event.noConfusion h1
        · obtain ⟨item2, hmem, hx2, hn2⟩ := ih h2
          exact ⟨item2, List.mem_cons_of_mem _ hmem, hx2, hn2⟩
      · simp only [hw, Bool.false_eq_true, if_false] at h
        cases h

theorem skipped_mem_processEntryF (canWrite : List String → Bool)
    (root : Element) (baseDir : List String) (it ct n v : String)
    (h : Event.skipped n v ∈
      (processEntryF canWrite root baseDir it ct).1.events) :
    ∃ item, exclusionValue ct item = some v := by
  unfold processEntryF at h
  cases hc : root.find ct with
  | none =>
    rw [hc] at h
    rcases List.mem_cons.mp h with h1 | h1
    · exact Event.noConfusion h1
    · cases h1
  | some container =>
    rw [hc] at h
    by_cases he : (container.findall it).isEmpty
    · simp only [he, if_true] at h
      rcases List.mem_cons.mp h with h1 | h1
      · exact Event.noConfusion h1
      · cases h1
    · simp only [he, Bool.false_eq_true, if_false] at h
      obtain ⟨item, _, hx, _⟩ := skipped_mem_processItemsF canWrite root.tag
        root.attrib ct container.attrib (baseDir ++ [it])
        (container.findall it) n v h
      exact ⟨item, hx⟩

theorem skipped_mem_processEntriesF (canWrite : List String → Bool)
    (root : Element) (baseDir : List String) (map : List (String × String))
    (n v : String)
    (h : Event.skipped n v ∈
      (processEntriesF canWrite root baseDir map).1.events) :
    ∃ ct item, exclusionValue ct item = some v := by
  induction map with
  | nil => cases h
  | cons e rest ih =>
    obtain ⟨it, ct⟩ := e
    rw [processEntriesF] at h
    by_cases hb : (processEntryF canWrite root baseDir it ct).2
    · simp only [hb, if_true] at h
      exact ⟨ct, skipped_mem_processEntryF canWrite root baseDir it ct n v h⟩
    · simp only [hb, Bool.false_eq_true, if_false] at h
      rcases List.mem_append.mp h with h1 | h1
      · exact ⟨ct, skipped_mem_processEntryF canWrite root baseDir it ct n v h1⟩
      · exact ih h1

/-- C10: the only exclusion the program applies is the hard-coded one:
(1) for any container tag other than `"IDODefinitions"` the exclusion test
never fires; (2) any Skipped event of any run — whatever the write oracle
— carries a value of the fixed set `{"BaseSyteLine", "Core"}`, reported by
the one hard-coded rule; (3) in a container processed under any other tag,
every item is written: one write per item, none excluded. -/
theorem c10_only_ido_exclusion :
    (∀ (ct : String) (item : Element), ct ≠ "IDODefinitions" →
      exclusionValue ct item = none) ∧
    (∀ (canWrite : List String → Bool) (root : Element)
        (baseDir : List String) (map : List (String × String)) (n v : String),
      Event.skipped n v ∈ (splitF canWrite root baseDir map).1.events →
      v = "BaseSyteLine" ∨ v = "Core") ∧
    (∀ (topTag : String) (topAttrib : List (String × String)) (ct : String)
        (cattrib : List (String × String)) (dir : List String)
        (items : List Element), ct ≠ "IDODefinitions" →
      (processItemsF (fun _ => true) topTag topAttrib ct cattrib dir items).1.writes
        = items.map (fun item => (itemPath dir item,
            buildItemDoc topTag topAttrib ct cattrib item))) := by
  have hnone : ∀ (ct : String) (item : Element), ct ≠ "IDODefinitions" →
      exclusionValue ct item = none := by
    intro ct item hct
    unfold exclusionValue
    rw [if_neg hct]
  refine ⟨hnone, ?_, ?_⟩
  · intro canWrite root baseDir map n v h
    obtain ⟨ct, item, hx⟩ :=
      skipped_mem_processEntriesF canWrite root baseDir map n v h
    exact (exclusionValue_some_eq ct item v hx).2
  · intro topTag topAttrib ct cattrib dir items hct
    rw [processItemsF_ok]
    exact filterMap_eq_map_of_mem items _ _
      (fun item _ => by unfold itemWrite; rw [hnone ct item hct])

theorem c10_only_ido_exclusion_witness :
    (("Forms" : String) ≠ "IDODefinitions" ∧
      exclusionValue "Forms" idoItemCore = none) ∧
    (Event.skipped "SLCos" "Core" ∈ (splitF (fun _ => true) idoRoot ["out"]
        [("IDODefinition", "IDODefinitions")]).1.events ∧
      (("Core" : String) = "BaseSyteLine" ∨ ("Core" : String) = "Core")) ∧
    (processItemsF (fun _ => true) "Export" [("V", "1")] "Forms" [("T", "1")]
        ["out", "Form"] [sampleItemA]).1.writes
      = [sampleItemA].map (fun item => (itemPath ["out", "Form"] item,
          buildItemDoc "Export" [("V", "1")] "Forms" [("T", "1")] item)) :=
  ⟨⟨by decide, c10_only_ido_exclusion.1 "Forms" idoItemCore (by decide)⟩,
    ⟨by decide,
      c10_only_ido_exclusion.2.1 (fun _ => true) idoRoot ["out"]
        [("IDODefinition", "IDODefinitions")] "SLCos" "Core" (by decide)⟩,
    c10_only_ido_exclusion.2.2 "Export" [("V", "1")] "Forms" [("T", "1")]
      ["out", "Form"] [sampleItemA] (by decide)⟩

end DynXml
